import Mathlib

set_option autoImplicit false

/-!
A shallow embedding of Halide's `src/Schedule.cpp` (the scheduling-metadata
core: `ScheduleContents`, `Schedule`, specialization and wrapper management,
the graph-aware deep copy, and the `mutate`/`accept` traversals), together
with proofs of the behavioural properties stated in the design document.

Modelling conventions:
- A C++ `Expr` handle may be undefined; an expression-valued field is
  therefore an `Option Expr` and `defined()` is `Option.isSome`.
- `IntrusivePtr<ScheduleContents>` inside a `Specialization` is an
  `Option ScheduleContents` (undefined pointer = `none`).
- `IntrusivePtr<FunctionContents>` values (the stages referenced by the
  wrapper map) are opaque to this file; they are modelled by their identity,
  a `Nat`.  `std::map` is modelled by an association list in iteration
  order.
- Stateful `IRMutator` / `IRVisitor` objects are modelled by a state type
  `σ` threaded through the traversal, so that the visitation order is
  observable (instantiating `σ` with `List Expr` records the trace).
- `internal_error` / a failing `internal_assert` aborts compilation; such
  an outcome is an `Except.error` carrying the diagnostic text.
-/

namespace Halide

/-- The compiler's expression IR.  It is external to `Schedule.cpp`; the
schedule core only stores, copies and hands expressions to a generic
transform, so a small term language suffices. -/
inductive Expr where
  | var : String → Expr
  | lit : Int → Expr
  | add : Expr → Expr → Expr
deriving DecidableEq, Repr

/-- The `LoopLevel` descriptor: names a location (stage + dimension) on another stage's
loop nest.  A reference by name, copied verbatim by deep copy. -/
structure LoopLevel where
  func : String
  var : String
deriving DecidableEq, Repr

/-- The `Split` descriptor: one loop-splitting transform; `factor` is an optionally-defined
expression. -/
structure Split where
  old_var : String
  outer : String
  inner : String
  factor : Option Expr
deriving DecidableEq, Repr

/-- The `Dim` descriptor: per-dimension scheduling descriptor, opaque to this core (no
embedded expressions). -/
structure Dim where
  var : String
deriving DecidableEq, Repr

/-- The `StorageDim` descriptor: per-dimension storage-layout descriptor, opaque to this
core. -/
structure StorageDim where
  var : String
deriving DecidableEq, Repr

/-- The `Bound` descriptor: per-dimension explicit constraint; `min` and `extent` are each
optionally-defined expressions. -/
structure Bound where
  var : String
  min : Option Expr
  extent : Option Expr
deriving DecidableEq, Repr

/-- Modelled from the spec: `ReductionDomain` is defined outside this file
(`Reduction.h` is not part of the given sources).  The schedule record holds
a shared, possibly-undefined reference and delegates `deep_copy` and
`mutate` to the domain's own primitives; only "the reduction domain's own
expressions" matter to the traversal, so the domain is modelled as an
optionally-defined list of expressions. -/
abbrev ReductionDomain := Option (List Expr)

/-- The record type `ScheduleContents` (Schedule.cpp lines 17-58): the schedule record.
`specializations` entries are `(condition, nested schedule)` pairs, both
components optionally defined; `wrappers` maps wrapper names to stage
identities. -/
inductive ScheduleContents where
  | mk
    (store_level : LoopLevel)
    (compute_level : LoopLevel)
    (splits : List Split)
    (dims : List Dim)
    (storage_dims : List StorageDim)
    (bounds : List Bound)
    (specializations : List (Option Expr × Option ScheduleContents))
    (wrappers : List (String × Nat))
    (reduction_domain : ReductionDomain)
    (memoized : Bool)
    (touched : Bool)
    (allow_race_conditions : Bool)
    : ScheduleContents

/-- A `Specialization` is a `(condition, nested schedule)` pair. -/
abbrev Specialization := Option Expr × Option ScheduleContents

def Specialization.condition (s : Specialization) : Option Expr := s.1

def Specialization.schedule (s : Specialization) : Option ScheduleContents := s.2

def ScheduleContents.store_level : ScheduleContents → LoopLevel
  | .mk sl _ _ _ _ _ _ _ _ _ _ _ => sl

def ScheduleContents.compute_level : ScheduleContents → LoopLevel
  | .mk _ cl _ _ _ _ _ _ _ _ _ _ => cl

def ScheduleContents.splits : ScheduleContents → List Split
  | .mk _ _ sp _ _ _ _ _ _ _ _ _ => sp

def ScheduleContents.dims : ScheduleContents → List Dim
  | .mk _ _ _ d _ _ _ _ _ _ _ _ => d

def ScheduleContents.storage_dims : ScheduleContents → List StorageDim
  | .mk _ _ _ _ sd _ _ _ _ _ _ _ => sd

def ScheduleContents.bounds : ScheduleContents → List Bound
  | .mk _ _ _ _ _ b _ _ _ _ _ _ => b

def ScheduleContents.specializations : ScheduleContents → List Specialization
  | .mk _ _ _ _ _ _ specs _ _ _ _ _ => specs

def ScheduleContents.wrappers : ScheduleContents → List (String × Nat)
  | .mk _ _ _ _ _ _ _ w _ _ _ _ => w

def ScheduleContents.reduction_domain : ScheduleContents → ReductionDomain
  | .mk _ _ _ _ _ _ _ _ rd _ _ _ => rd

def ScheduleContents.memoized : ScheduleContents → Bool
  | .mk _ _ _ _ _ _ _ _ _ mz _ _ => mz

def ScheduleContents.touched : ScheduleContents → Bool
  | .mk _ _ _ _ _ _ _ _ _ _ t _ => t

def ScheduleContents.allow_race_conditions : ScheduleContents → Bool
  | .mk _ _ _ _ _ _ _ _ _ _ _ ar => ar

/-- The record a default-constructed `ScheduleContents` holds (Schedule.cpp
line 32): all sequences empty, reduction domain undefined, all flags
false. -/
def emptyScheduleContents : ScheduleContents :=
  .mk ⟨"", ""⟩ ⟨"", ""⟩ [] [] [] [] [] [] none false false false

/-- Write through the mutable accessor `Schedule::splits()` (Schedule.cpp
line 151): replace the splits sequence in place. -/
def ScheduleContents.setSplits : ScheduleContents → List Split → ScheduleContents
  | .mk sl cl _ d sd b specs w rd mz t ar, sp => .mk sl cl sp d sd b specs w rd mz t ar

/-- Write through the mutable accessor `Schedule::bounds()`. -/
def ScheduleContents.setBounds : ScheduleContents → List Bound → ScheduleContents
  | .mk sl cl sp d sd _ specs w rd mz t ar, b => .mk sl cl sp d sd b specs w rd mz t ar

/-- Replace the specialization list (used to express mutation through the
reference `add_specialization` returns into the parent's vector). -/
def ScheduleContents.setSpecializations : ScheduleContents → List Specialization → ScheduleContents
  | .mk sl cl sp d sd b _ w rd mz t ar, specs => .mk sl cl sp d sd b specs w rd mz t ar

/-- A stateful `IRMutator`, modelled as a state-threading expression
transform. -/
abbrev Mutator (σ : Type) := σ → Expr → σ × Expr

/-- A stateful read-only `IRVisitor`. -/
abbrev Visitor (σ : Type) := σ → Expr → σ

/-- The statement `if (e.defined()) e = mutator->mutate(e);` on an optionally-defined
expression field: undefined fields are left undefined, never
materialized. -/
def mutateOpt {σ : Type} (m : Mutator σ) (st : σ) : Option Expr → σ × Option Expr
  | none => (st, none)
  | some e => ((m st e).1, some (m st e).2)

/-- The split-factor loop of `ScheduleContents::mutate` (lines 36-40). -/
def mutateSplits {σ : Type} (m : Mutator σ) : σ → List Split → σ × List Split
  | st, [] => (st, [])
  | st, s :: rest =>
    let p := mutateOpt m st s.factor
    let q := mutateSplits m p.1 rest
    (q.1, { s with factor := p.2 } :: q.2)

/-- The bound loop of `ScheduleContents::mutate` (lines 41-48): `min` then
`extent`, each guarded by `defined()`. -/
def mutateBounds {σ : Type} (m : Mutator σ) : σ → List Bound → σ × List Bound
  | st, [] => (st, [])
  | st, b :: rest =>
    let p := mutateOpt m st b.min
    let q := mutateOpt m p.1 b.extent
    let r := mutateBounds m q.1 rest
    (r.1, { b with min := p.2, extent := q.2 } :: r.2)

/-- State-threading map over a list of expressions. -/
def mutateExprList {σ : Type} (m : Mutator σ) : σ → List Expr → σ × List Expr
  | st, [] => (st, [])
  | st, e :: rest =>
    let p := m st e
    let q := mutateExprList m p.1 rest
    (q.1, p.2 :: q.2)

/-- Modelled from the spec: the reduction domain's own `mutate` primitive
(`reduction_domain.mutate(mutator)`, Schedule.cpp line 56) passes the
mutator through the domain's own expressions; an undefined domain has
none. -/
def rdomMutate {σ : Type} (m : Mutator σ) (st : σ) : ReductionDomain → σ × ReductionDomain
  | none => (st, none)
  | some es =>
    let p := mutateExprList m st es
    (p.1, some p.2)

mutual

/-- The member `ScheduleContents::mutate` (Schedule.cpp lines 35-57): pass an IRMutator
through all Exprs referenced in the ScheduleContents, in the fixed order
splits, bounds, specializations (condition then nested record, recursively),
reduction domain.  The `internal_assert(s.schedule.defined())` on line 53 is
an `Except.error`. -/
def ScheduleContents.mutate {σ : Type} (m : Mutator σ) : ScheduleContents → σ → Except String (ScheduleContents × σ)
  | .mk sl cl sp d sd b specs w rd mz t ar, st =>
    let p := mutateSplits m st sp
    let q := mutateBounds m p.1 b
    match mutateSpecs m specs q.1 with
    | .error e => .error e
    | .ok (specs2, st3) =>
      let r := rdomMutate m st3 rd
      .ok (.mk sl cl p.2 d sd q.2 specs2 w r.2 mz t ar, r.1)

/-- The specialization loop of `ScheduleContents::mutate` (lines 49-55):
mutate the condition if defined, assert the nested schedule is defined,
recurse into it. -/
def mutateSpecs {σ : Type} (m : Mutator σ) : List Specialization → σ → Except String (List Specialization × σ)
  | [], st => .ok ([], st)
  | (cond, sched) :: rest, st =>
    let p := mutateOpt m st cond
    match sched with
    | none => .error "internal_assert failed: s.schedule.defined()"
    | some sc =>
      match ScheduleContents.mutate m sc p.1 with
      | .error e => .error e
      | .ok (sc2, st2) =>
        match mutateSpecs m rest st2 with
        | .error e => .error e
        | .ok (rest2, st3) => .ok ((p.2, some sc2) :: rest2, st3)

end

/-- The member `Schedule::mutate` (Schedule.cpp lines 274-278): a no-op on an undefined
handle, otherwise delegates to the record's `mutate`. -/
def Schedule.mutate {σ : Type} (m : Mutator σ) : Option ScheduleContents → σ → Except String (Option ScheduleContents × σ)
  | none, st => .ok (none, st)
  | some sc, st => (ScheduleContents.mutate m sc st).map (fun r => (some r.1, r.2))

/-- The statement `if (e.defined()) e.accept(visitor);` on an optionally-defined
expression field. -/
def acceptOpt {σ : Type} (v : Visitor σ) (st : σ) : Option Expr → σ
  | none => st
  | some e => v st e

/-- The specialization loop of `Schedule::accept` (lines 269-271):
`s.condition.accept(visitor)` is NOT guarded by a definedness check, so an
undefined condition dereferences an undefined `Expr`. -/
def acceptConds {σ : Type} (v : Visitor σ) : List Specialization → σ → Except String σ
  | [], st => .ok st
  | (cond, _) :: rest, st =>
    match cond with
    | none => .error "dereference of undefined Expr in Schedule::accept"
    | some c => acceptConds v rest (v st c)

/-- The member `Schedule::accept` (Schedule.cpp lines 255-272): visit the defined split
factors, then the defined bound mins/extents, then every specialization's
condition (unconditionally).  It does not recurse into the nested
specialization records and does not visit the reduction domain. -/
def Schedule.accept {σ : Type} (v : Visitor σ) (sc : ScheduleContents) (st : σ) : Except String σ :=
  let st1 := sc.splits.foldl (fun a s => acceptOpt v a s.factor) st
  let st2 := sc.bounds.foldl (fun a b => acceptOpt v (acceptOpt v a b.min) b.extent) st1
  acceptConds v sc.specializations st2

/-- Association-list lookup: first entry with the given key
(models `std::map::find` / `operator[]` read). -/
def alistFind {κ ν : Type} [DecidableEq κ] : List (κ × ν) → κ → Option ν
  | [], _ => none
  | (k2, v2) :: rest, k => if k2 = k then some v2 else alistFind rest k

/-- Association-list key test (models `std::map::count`). -/
def alistHasKey {κ ν : Type} [DecidableEq κ] : List (κ × ν) → κ → Bool
  | [], _ => false
  | (k2, _) :: rest, k => k2 = k || alistHasKey rest k

/-- Association-list insert-or-assign (models `std::map::operator[] =`):
replaces the value at an existing key, otherwise appends the new entry. -/
def alistInsert {κ ν : Type} [DecidableEq κ] : List (κ × ν) → κ → ν → List (κ × ν)
  | [], k, v => [(k, v)]
  | (k2, v2) :: rest, k, v =>
    if k2 = k then (k2, v) :: rest else (k2, v2) :: alistInsert rest k v

/-- All keys of the association list are distinct (a `std::map`
invariant). -/
def alistKeysNodup {κ ν : Type} [DecidableEq κ] : List (κ × ν) → Bool
  | [] => true
  | (k, _) :: rest => !(alistHasKey rest k) && alistKeysNodup rest

/-- Write through the wrapper map (used by `add_wrapper`). -/
def ScheduleContents.setWrappers : ScheduleContents → List (String × Nat) → ScheduleContents
  | .mk sl cl sp d sd b specs _ rd mz t ar, w => .mk sl cl sp d sd b specs w rd mz t ar

/-- The member `Schedule::add_specialization` (Schedule.cpp lines 183-202): allocate a
fresh nested record, copy into it the parent's store/compute level, splits,
dims, storage dims, bounds, reduction domain and the three flags (NOT its
specializations and NOT its wrappers — the fresh record's lists stay
empty), append `(condition, nested)` to the specialization list, and return
the appended entry. -/
def Schedule.add_specialization (sc : ScheduleContents) (condition : Option Expr) :
    ScheduleContents × Specialization :=
  let nested : ScheduleContents :=
    .mk sc.store_level sc.compute_level sc.splits sc.dims sc.storage_dims
      sc.bounds [] [] sc.reduction_domain sc.memoized sc.touched
      sc.allow_race_conditions
  let s : Specialization := (condition, some nested)
  (sc.setSpecializations (sc.specializations ++ [s]), s)

/-- The member `Schedule::add_wrapper` (Schedule.cpp lines 208-219).  The result is the
updated record together with the list of warnings emitted; `internal_error`
(redefinition of a non-default wrapper) is an `Except.error` and, because
the C++ abort fires before the assignment on line 218 executes, no map
update is produced in that case. -/
def Schedule.add_wrapper (sc : ScheduleContents) (f : String) (wrapper : Nat) :
    Except String (ScheduleContents × List String) :=
  if alistHasKey sc.wrappers f then
    if f = "" then
      .ok (sc.setWrappers (alistInsert sc.wrappers f wrapper),
        ["Replacing previous definition of global wrapper in function \"" ++ f ++ "\""])
    else
      .error ("Wrapper redefinition in function \"" ++ f ++ "\" is not allowed")
  else
    .ok (sc.setWrappers (alistInsert sc.wrappers f wrapper), [])

/-- The memo map shared across one whole-graph clone operation
(`DeepCopyMap`), plus an allocator for fresh stage identities. -/
structure CloneState where
  memo : List (Nat × Nat)
  nextId : Nat
deriving DecidableEq, Repr

/-- Modelled from the spec: `deep_copy_function_contents_helper` is declared
in Schedule.cpp (line 11) but defined in the absent Function.cpp.  The spec
only requires that the stage-level primitive produce a fresh clone object
distinct from every existing stage; with stages modelled by identity, the
clone is a freshly allocated identity. -/
def deep_copy_function_contents_helper (_src : Nat) (st : CloneState) : Nat × CloneState :=
  (st.nextId, { st with nextId := st.nextId + 1 })

/-- The wrapper loop of `deep_copy_schedule_contents_helper` (Schedule.cpp
lines 97-105): for each `name → stage`, reuse the memoised clone if the
stage was already copied, otherwise clone it via the stage-level primitive
and record the clone in the memo map. -/
def copyWrappers : List (String × Nat) → List (String × Nat) → CloneState →
    List (String × Nat) × CloneState
  | [], dstW, st => (dstW, st)
  | (name, fid) :: rest, dstW, st =>
    match alistFind st.memo fid with
    | some c => copyWrappers rest (alistInsert dstW name c) st
    | none =>
      let p := deep_copy_function_contents_helper fid st
      let st2 : CloneState := { p.2 with memo := alistInsert p.2.memo fid p.1 }
      copyWrappers rest (alistInsert dstW name p.1) st2

/-- Modelled from the spec: the reduction domain's own `deep_copy` primitive
(`src.ptr->reduction_domain.deep_copy()`, Schedule.cpp line 89) produces a
fresh domain with the same expressions; on values this is the identity. -/
def rdomDeepCopy (rd : ReductionDomain) : ReductionDomain := rd

mutual

/-- The defined-source body of `deep_copy_schedule_contents_helper`
(Schedule.cpp lines 82-116): value-copy placement, splits, dims, storage
dims, bounds and flags; delegate the reduction domain to its own
`deep_copy`; copy the wrapper map through the shared memo map; assert the
wrapper counts match; recursively deep-copy the specializations. -/
def deep_copy_defined :
    ScheduleContents → CloneState → Except String (ScheduleContents × CloneState)
  | .mk sl cl sp d sd b specs w rd mz t ar, st =>
    let pw := copyWrappers w [] st
    if pw.1.length = w.length then
      match copySpecs specs pw.2 with
      | .error e => .error e
      | .ok (specs2, st2) =>
        .ok (.mk sl cl sp d sd b specs2 pw.1 (rdomDeepCopy rd) mz t ar, st2)
    else
      .error "internal_assert failed: wrappers size mismatch"

/-- The specialization loop of `deep_copy_schedule_contents_helper`
(Schedule.cpp lines 109-115): copy the condition by value and deep-copy
the nested schedule through the same memo map.  The fresh record allocated
on line 112 is unconditionally overwritten by the recursive helper call on
line 113, so the entry's schedule is exactly the helper's output: undefined
stays undefined, defined is cloned by `deep_copy_defined`. -/
def copySpecs : List Specialization → CloneState → Except String (List Specialization × CloneState)
  | [], st => .ok ([], st)
  | (cond, sched) :: rest, st =>
    match sched with
    | none =>
      match copySpecs rest st with
      | .error e => .error e
      | .ok (rest2, st2) => .ok ((cond, none) :: rest2, st2)
    | some sc =>
      match deep_copy_defined sc st with
      | .error e => .error e
      | .ok (sc2, st2) =>
        match copySpecs rest st2 with
        | .error e => .error e
        | .ok (rest2, st3) => .ok ((cond, some sc2) :: rest2, st3)

end

/-- The function `deep_copy_schedule_contents_helper` (Schedule.cpp lines 74-116).
Undefined source: `dst = src` (lines 78-81), i.e. an undefined result, no
allocation, no error.  Defined source: delegate to `deep_copy_defined`. -/
def deep_copy_schedule_contents_helper :
    Option ScheduleContents → CloneState → Except String (Option ScheduleContents × CloneState)
  | none, st => .ok (none, st)
  | some sc, st =>
    match deep_copy_defined sc st with
    | .error e => .error e
    | .ok (c, st2) => .ok (some c, st2)

/-- The constructor `Schedule::Schedule()` (Schedule.cpp line 120): the public default
constructor always allocates a fresh empty record. -/
def Schedule.new : Option ScheduleContents := some emptyScheduleContents

/-- The member `Schedule::deep_copy` (Schedule.cpp lines 122-129): `Schedule copy` is
freshly constructed (hence defined), so the `internal_assert` reduces to a
definedness check on `this->contents`; an undefined handle aborts with the
"Cannot deep-copy undefined Schedule" diagnostic, a defined one delegates to
the helper. -/
def Schedule.deep_copy (contents : Option ScheduleContents) (copied_map : CloneState) :
    Except String (Option ScheduleContents × CloneState) :=
  match contents with
  | none => .error "Cannot deep-copy undefined Schedule"
  | some sc => deep_copy_schedule_contents_helper (some sc) copied_map

/-- A heap of schedule records; a defined `Schedule` handle is an index into
it, and copying a handle copies the index (aliasing the record). -/
abbrev Heap := List ScheduleContents

/-- Read a record through a handle. -/
def heapGet (h : Heap) (p : Nat) : Option ScheduleContents := h[p]?

/-- Mutate through the mutable accessor `splits()` of the handle `p`: every
handle holding the same index observes the update. -/
def heapSetSplits (h : Heap) (p : Nat) (sp : List Split) : Heap :=
  match h[p]? with
  | none => h
  | some sc => h.set p (sc.setSplits sp)

/-- Observe `splits()` through a handle. -/
def heapSplits (h : Heap) (p : Nat) : Option (List Split) :=
  (h[p]?).map ScheduleContents.splits

/-- The member `Schedule::deep_copy` at the handle level: allocate the clone record as
a fresh heap cell and return its (fresh) index. -/
def Schedule.deep_copyH (h : Heap) (p : Nat) (st : CloneState) :
    Except String (Heap × Nat × CloneState) :=
  match h[p]? with
  | none => .error "Cannot deep-copy undefined Schedule"
  | some sc =>
    match deep_copy_schedule_contents_helper (some sc) st with
    | .error e => .error e
    | .ok (none, _) => .error "unreachable: helper returned undefined for defined input"
    | .ok (some c, st2) => .ok (h ++ [c], h.length, st2)

mutual

/-- Every specialization reachable in the record (at any nesting depth) has
a defined nested schedule — the invariant behind the `internal_assert` on
Schedule.cpp line 53. -/
def specsDefinedB : ScheduleContents → Bool
  | .mk _ _ _ _ _ _ specs _ _ _ _ _ => specsDefinedList specs

def specsDefinedList : List Specialization → Bool
  | [] => true
  | (_, none) :: _ => false
  | (_, some sc) :: rest => specsDefinedB sc && specsDefinedList rest

end

mutual

/-- Every wrapper map reachable in the record has distinct keys (the
`std::map` invariant, which the association-list model must carry as a
hypothesis). -/
def wfWrapB : ScheduleContents → Bool
  | .mk _ _ _ _ _ _ specs w _ _ _ _ => alistKeysNodup w && wfWrapList specs

def wfWrapList : List Specialization → Bool
  | [] => true
  | (_, none) :: rest => wfWrapList rest
  | (_, some sc) :: rest => wfWrapB sc && wfWrapList rest

end

/-- Every top-level specialization has a defined condition — the
precondition under which `Schedule::accept` is total. -/
def condsDefinedTop (sc : ScheduleContents) : Bool :=
  sc.specializations.all (fun s => s.1.isSome)

/-- The defined split factors, in order. -/
def splitFactors : List Split → List Expr
  | [] => []
  | s :: rest => s.factor.toList ++ splitFactors rest

/-- The defined bound mins and extents, in order (min before extent). -/
def boundExprs : List Bound → List Expr
  | [] => []
  | b :: rest => b.min.toList ++ b.extent.toList ++ boundExprs rest

/-- The defined specialization conditions, in order. -/
def condExprs : List Specialization → List Expr
  | [] => []
  | (cond, _) :: rest => cond.toList ++ condExprs rest

mutual

/-- The visitation order the design document prescribes for `mutate`:
splits, then bounds, then specializations (condition, then nested record,
recursively), then the reduction domain's own expressions; only defined
expressions are visited. -/
def visitOrder : ScheduleContents → List Expr
  | .mk _ _ sp _ _ b specs _ rd _ _ _ =>
    splitFactors sp ++ boundExprs b ++ visitOrderSpecs specs ++ rd.getD []

def visitOrderSpecs : List Specialization → List Expr
  | [] => []
  | (cond, sched) :: rest =>
    cond.toList ++ (match sched with | none => [] | some sc => visitOrder sc) ++
      visitOrderSpecs rest

end

mutual

/-- The record the design document says a sentinel-rewriting `mutate` must
produce: every defined expression (split factor, bound min/extent,
specialization condition at every depth, reduction-domain expression)
becomes the sentinel, every undefined expression stays undefined, and all
other fields — `Dim` and `StorageDim` descriptors included — are
untouched. -/
def sentinelImage (sentinel : Expr) : ScheduleContents → ScheduleContents
  | .mk sl cl sp d sd b specs w rd mz t ar =>
    .mk sl cl
      (sp.map fun s => { s with factor := s.factor.map fun _ => sentinel })
      d sd
      (b.map fun bd =>
        { bd with min := bd.min.map fun _ => sentinel,
                  extent := bd.extent.map fun _ => sentinel })
      (sentinelImageSpecs sentinel specs) w
      (rd.map fun es => es.map fun _ => sentinel) mz t ar

def sentinelImageSpecs (sentinel : Expr) : List Specialization → List Specialization
  | [] => []
  | (cond, sched) :: rest =>
    (cond.map fun _ => sentinel,
      match sched with
      | none => none
      | some sc => some (sentinelImage sentinel sc)) :: sentinelImageSpecs sentinel rest

end

/-- The identity expression transform. -/
def idMutator {σ : Type} : Mutator σ := fun st e => (st, e)

/-- The transform that rewrites every leaf it reaches to a fixed
sentinel. -/
def sentMutator {σ : Type} (sentinel : Expr) : Mutator σ := fun st _ => (st, sentinel)

/-- A mutator that records every expression it is handed, in order. -/
def traceMutator : Mutator (List Expr) := fun l e => (l ++ [e], e)

/-- A visitor that records every expression it is handed, in order. -/
def traceVisitor : Visitor (List Expr) := fun l e => l ++ [e]

/-- Run `mutate` with a trace-recording mutator and return the list of
expressions visited, in order. -/
def mutateTrace (sc : ScheduleContents) : Except String (List Expr) :=
  (ScheduleContents.mutate traceMutator sc []).map (fun r => r.2)

/-- Run `accept` with a trace-recording visitor and return the list of
expressions visited, in order. -/
def acceptTrace (sc : ScheduleContents) : Except String (List Expr) :=
  Schedule.accept traceVisitor sc []

/-- The expressions `accept` actually walks: the defined top-level split
factors and bound mins/extents and the top-level specialization conditions;
nothing from nested records, nothing from the reduction domain. -/
def acceptOrderTop (sc : ScheduleContents) : List Expr :=
  splitFactors sc.splits ++ boundExprs sc.bounds ++ condExprs sc.specializations

/-- A concrete nested record: one split with factor 4 on "y". -/
def nested0 : ScheduleContents :=
  .mk ⟨"", ""⟩ ⟨"", ""⟩ [⟨"y", "yo", "yi", some (.lit 4)⟩] [] [] [] [] [] none
    false false false

/-- A concrete record exercising every kind of expression-bearing field:
one split (factor 8), one bound (min 0, extent 16), one specialization with
condition `p` and nested record `nested0`, and a defined reduction domain
with one expression `r`. -/
def sc0 : ScheduleContents :=
  .mk ⟨"", ""⟩ ⟨"", ""⟩ [⟨"x", "xo", "xi", some (.lit 8)⟩] [⟨"x"⟩] [⟨"x"⟩]
    [⟨"x", some (.lit 0), some (.lit 16)⟩]
    [(some (.var "p"), some nested0)] [] (some [.var "r"]) false false false

/-- A concrete record whose wrappers "a" and "b" reference the same stage
`7`. -/
def scW : ScheduleContents :=
  .mk ⟨"", ""⟩ ⟨"", ""⟩ [] [] [] [] [] [("a", 7), ("b", 7)] none false false false

/-- A concrete record with a default wrapper and a named wrapper. -/
def scW3 : ScheduleContents :=
  .mk ⟨"", ""⟩ ⟨"", ""⟩ [] [] [] [] [] [("", 1), ("f", 2)] none false false false

/-- A concrete record with an undefined split factor, an undefined bound
min, and a specialization whose condition is undefined. -/
def scU : ScheduleContents :=
  .mk ⟨"", ""⟩ ⟨"", ""⟩ [⟨"x", "xo", "xi", none⟩] [] []
    [⟨"x", none, some (.lit 1)⟩] [(none, some nested0)] [] none false false false

/-- Write `sp` through the reference `add_specialization` returned: replace
the splits of the nested schedule of the last specialization entry. -/
def writeLastSpecSplits (sc : ScheduleContents) (sp : List Split) : ScheduleContents :=
  match sc.specializations.getLast? with
  | none => sc
  | some s =>
    sc.setSpecializations (sc.specializations.dropLast ++
      [(s.1, s.2.map (fun n => n.setSplits sp))])

/-! ## Proof infrastructure -/

@[simp]
theorem mk_store_level (sl cl sp d sd b specs w rd mz t ar) :
    (ScheduleContents.mk sl cl sp d sd b specs w rd mz t ar).store_level = sl := rfl

@[simp]
theorem mk_compute_level (sl cl sp d sd b specs w rd mz t ar) :
    (ScheduleContents.mk sl cl sp d sd b specs w rd mz t ar).compute_level = cl := rfl

@[simp]
theorem mk_splits (sl cl sp d sd b specs w rd mz t ar) :
    (ScheduleContents.mk sl cl sp d sd b specs w rd mz t ar).splits = sp := rfl

@[simp]
theorem mk_dims (sl cl sp d sd b specs w rd mz t ar) :
    (ScheduleContents.mk sl cl sp d sd b specs w rd mz t ar).dims = d := rfl

@[simp]
theorem mk_storage_dims (sl cl sp d sd b specs w rd mz t ar) :
    (ScheduleContents.mk sl cl sp d sd b specs w rd mz t ar).storage_dims = sd := rfl

@[simp]
theorem mk_bounds (sl cl sp d sd b specs w rd mz t ar) :
    (ScheduleContents.mk sl cl sp d sd b specs w rd mz t ar).bounds = b := rfl

@[simp]
theorem mk_specializations (sl cl sp d sd b specs w rd mz t ar) :
    (ScheduleContents.mk sl cl sp d sd b specs w rd mz t ar).specializations = specs := rfl

@[simp]
theorem mk_wrappers (sl cl sp d sd b specs w rd mz t ar) :
    (ScheduleContents.mk sl cl sp d sd b specs w rd mz t ar).wrappers = w := rfl

@[simp]
theorem mk_reduction_domain (sl cl sp d sd b specs w rd mz t ar) :
    (ScheduleContents.mk sl cl sp d sd b specs w rd mz t ar).reduction_domain = rd := rfl

@[simp]
theorem mk_memoized (sl cl sp d sd b specs w rd mz t ar) :
    (ScheduleContents.mk sl cl sp d sd b specs w rd mz t ar).memoized = mz := rfl

@[simp]
theorem mk_touched (sl cl sp d sd b specs w rd mz t ar) :
    (ScheduleContents.mk sl cl sp d sd b specs w rd mz t ar).touched = t := rfl

@[simp]
theorem mk_allow_race_conditions (sl cl sp d sd b specs w rd mz t ar) :
    (ScheduleContents.mk sl cl sp d sd b specs w rd mz t ar).allow_race_conditions = ar := rfl

theorem sizeOf_lt_of_mem_specs {c : Option Expr} {s : ScheduleContents}
    {specs : List Specialization} (hm : (c, some s) ∈ specs) :
    sizeOf s < sizeOf specs := by
  induction specs with
  | nil => cases hm
  | cons hd tl ih =>
    rcases List.mem_cons.mp hm with h | h
    · subst h
      simp only [List.cons.sizeOf_spec, Prod.mk.sizeOf_spec, Option.some.sizeOf_spec]
      omega
    · have := ih h
      simp only [List.cons.sizeOf_spec]
      omega

/-- Structural induction over a schedule record, with the inductive
hypothesis available for every defined nested specialization schedule. -/
theorem ScheduleContents.inductionOn
    {P : ScheduleContents → Prop}
    (h : ∀ sl cl sp d sd b specs w rd mz t ar,
        (∀ c s, (c, some s) ∈ specs → P s) →
        P (.mk sl cl sp d sd b specs w rd mz t ar))
    (sc : ScheduleContents) : P sc := by
  have main : ∀ (n : Nat) (x : ScheduleContents), sizeOf x ≤ n → P x := by
    intro n
    induction n with
    | zero =>
      intro x hx
      cases x with
      | mk sl cl sp d sd b specs w rd mz t ar =>
        simp only [ScheduleContents.mk.sizeOf_spec] at hx
        omega
    | succ n ih =>
      intro x hx
      cases x with
      | mk sl cl sp d sd b specs w rd mz t ar =>
        apply h
        intro c s hm
        apply ih
        have h1 := sizeOf_lt_of_mem_specs hm
        simp only [ScheduleContents.mk.sizeOf_spec] at hx
        omega
  exact main (sizeOf sc) sc (Nat.le_refl _)

/-! ## `mutate` with the identity transform -/

theorem mutateOpt_id {σ : Type} (st : σ) (o : Option Expr) :
    mutateOpt idMutator st o = (st, o) := by
  cases o <;> rfl

theorem mutateSplits_id {σ : Type} (st : σ) (l : List Split) :
    mutateSplits idMutator st l = (st, l) := by
  induction l generalizing st with
  | nil => rfl
  | cons s rest ih => simp [mutateSplits, mutateOpt_id, ih]

theorem mutateBounds_id {σ : Type} (st : σ) (l : List Bound) :
    mutateBounds idMutator st l = (st, l) := by
  induction l generalizing st with
  | nil => rfl
  | cons b rest ih => simp [mutateBounds, mutateOpt_id, ih]

theorem mutateExprList_id {σ : Type} (st : σ) (l : List Expr) :
    mutateExprList idMutator st l = (st, l) := by
  induction l generalizing st with
  | nil => rfl
  | cons e rest ih => simp [mutateExprList, idMutator, ih]

theorem rdomMutate_id {σ : Type} (st : σ) (rd : ReductionDomain) :
    rdomMutate idMutator st rd = (st, rd) := by
  cases rd with
  | none => rfl
  | some es => simp [rdomMutate, mutateExprList_id]

theorem mutateSpecs_id {σ : Type} (st : σ) (specs : List Specialization)
    (hIH : ∀ c s, (c, some s) ∈ specs → ∀ (st2 : σ), specsDefinedB s = true →
      ScheduleContents.mutate idMutator s st2 = .ok (s, st2))
    (h : specsDefinedList specs = true) :
    mutateSpecs idMutator specs st = .ok (specs, st) := by
  induction specs generalizing st with
  | nil => rfl
  | cons hd tl ih =>
    obtain ⟨cond, sched⟩ := hd
    cases sched with
    | none => simp [specsDefinedList] at h
    | some sc =>
      simp only [specsDefinedList, Bool.and_eq_true] at h
      have h1 := hIH cond sc (List.mem_cons_self _ _) st h.1
      have h2 := ih st (fun c s hm st2 hs => hIH c s (List.mem_cons_of_mem _ hm) st2 hs) h.2
      simp [mutateSpecs, mutateOpt_id, h1, h2]

/-- Applying `mutate` with the identity transform leaves the record (every
field's defined/undefined status and value) and the mutator state
unchanged. -/
theorem mutate_id {σ : Type} (st : σ) (sc : ScheduleContents)
    (h : specsDefinedB sc = true) :
    ScheduleContents.mutate idMutator sc st = .ok (sc, st) := by
  induction sc using ScheduleContents.inductionOn generalizing st with
  | h sl cl sp d sd b specs w rd mz t ar hIH =>
    have hs : specsDefinedList specs = true := h
    have hspecs := mutateSpecs_id st specs
      (fun c s hm st2 hdef => hIH c s hm st2 hdef) hs
    simp [ScheduleContents.mutate, mutateSplits_id, mutateBounds_id, hspecs, rdomMutate_id]

/-! ## `mutate` with a sentinel-rewriting transform -/

theorem mutateOpt_sent {σ : Type} (s0 : Expr) (st : σ) (o : Option Expr) :
    mutateOpt (sentMutator s0) st o = (st, o.map fun _ => s0) := by
  cases o <;> rfl

theorem mutateSplits_sent {σ : Type} (s0 : Expr) (st : σ) (l : List Split) :
    mutateSplits (sentMutator s0) st l =
      (st, l.map fun s => { s with factor := s.factor.map fun _ => s0 }) := by
  induction l generalizing st with
  | nil => rfl
  | cons s rest ih => simp [mutateSplits, mutateOpt_sent, ih]

theorem mutateBounds_sent {σ : Type} (s0 : Expr) (st : σ) (l : List Bound) :
    mutateBounds (sentMutator s0) st l =
      (st, l.map fun b =>
        { b with min := b.min.map fun _ => s0, extent := b.extent.map fun _ => s0 }) := by
  induction l generalizing st with
  | nil => rfl
  | cons b rest ih => simp [mutateBounds, mutateOpt_sent, ih]

theorem mutateExprList_sent {σ : Type} (s0 : Expr) (st : σ) (l : List Expr) :
    mutateExprList (sentMutator s0) st l = (st, l.map fun _ => s0) := by
  induction l generalizing st with
  | nil => rfl
  | cons e rest ih => simp [mutateExprList, sentMutator, ih]

theorem rdomMutate_sent {σ : Type} (s0 : Expr) (st : σ) (rd : ReductionDomain) :
    rdomMutate (sentMutator s0) st rd = (st, rd.map fun es => es.map fun _ => s0) := by
  cases rd with
  | none => rfl
  | some es => simp [rdomMutate, mutateExprList_sent]

theorem mutateSpecs_sent {σ : Type} (s0 : Expr) (st : σ) (specs : List Specialization)
    (hIH : ∀ c s, (c, some s) ∈ specs → ∀ (st2 : σ), specsDefinedB s = true →
      ScheduleContents.mutate (sentMutator s0) s st2 = .ok (sentinelImage s0 s, st2))
    (h : specsDefinedList specs = true) :
    mutateSpecs (sentMutator s0) specs st = .ok (sentinelImageSpecs s0 specs, st) := by
  induction specs generalizing st with
  | nil => rfl
  | cons hd tl ih =>
    obtain ⟨cond, sched⟩ := hd
    cases sched with
    | none => simp [specsDefinedList] at h
    | some sc =>
      simp only [specsDefinedList, Bool.and_eq_true] at h
      have h1 := hIH cond sc (List.mem_cons_self _ _) st h.1
      have h2 := ih st (fun c s hm st2 hs => hIH c s (List.mem_cons_of_mem _ hm) st2 hs) h.2
      simp [mutateSpecs, mutateOpt_sent, h1, h2, sentinelImageSpecs]

/-- Applying `mutate` with a sentinel-rewriting transform replaces exactly
the defined expressions (split factors, bound mins/extents, specialization
conditions at every depth, reduction-domain expressions) by the sentinel,
keeps undefined fields undefined, and leaves every other field — `Dim` and
`StorageDim` descriptors included — untouched. -/
theorem mutate_sent {σ : Type} (s0 : Expr) (st : σ) (sc : ScheduleContents)
    (h : specsDefinedB sc = true) :
    ScheduleContents.mutate (sentMutator s0) sc st = .ok (sentinelImage s0 sc, st) := by
  induction sc using ScheduleContents.inductionOn generalizing st with
  | h sl cl sp d sd b specs w rd mz t ar hIH =>
    have hs : specsDefinedList specs = true := h
    have hspecs := mutateSpecs_sent s0 st specs
      (fun c s hm st2 hdef => hIH c s hm st2 hdef) hs
    simp [ScheduleContents.mutate, mutateSplits_sent, mutateBounds_sent, hspecs,
      rdomMutate_sent, sentinelImage]

/-! ## The visitation order of `mutate` -/

theorem mutateOpt_trace (l : List Expr) (o : Option Expr) :
    mutateOpt traceMutator l o = (l ++ o.toList, o) := by
  cases o <;> simp [mutateOpt, traceMutator]

theorem mutateSplits_trace (l : List Expr) (sp : List Split) :
    mutateSplits traceMutator l sp = (l ++ splitFactors sp, sp) := by
  induction sp generalizing l with
  | nil => simp [mutateSplits, splitFactors]
  | cons s rest ih => simp [mutateSplits, mutateOpt_trace, ih, splitFactors]

theorem mutateBounds_trace (l : List Expr) (b : List Bound) :
    mutateBounds traceMutator l b = (l ++ boundExprs b, b) := by
  induction b generalizing l with
  | nil => simp [mutateBounds, boundExprs]
  | cons bd rest ih => simp [mutateBounds, mutateOpt_trace, ih, boundExprs]

theorem mutateExprList_trace (l : List Expr) (es : List Expr) :
    mutateExprList traceMutator l es = (l ++ es, es) := by
  induction es generalizing l with
  | nil => simp [mutateExprList]
  | cons e rest ih => simp [mutateExprList, traceMutator, ih]

theorem rdomMutate_trace (l : List Expr) (rd : ReductionDomain) :
    rdomMutate traceMutator l rd = (l ++ rd.getD [], rd) := by
  cases rd with
  | none => simp [rdomMutate]
  | some es => simp [rdomMutate, mutateExprList_trace]

theorem mutateSpecs_trace (l : List Expr) (specs : List Specialization)
    (hIH : ∀ c s, (c, some s) ∈ specs → ∀ (l2 : List Expr), specsDefinedB s = true →
      ScheduleContents.mutate traceMutator s l2 = .ok (s, l2 ++ visitOrder s))
    (h : specsDefinedList specs = true) :
    mutateSpecs traceMutator specs l = .ok (specs, l ++ visitOrderSpecs specs) := by
  induction specs generalizing l with
  | nil => simp [mutateSpecs, visitOrderSpecs]
  | cons hd tl ih =>
    obtain ⟨cond, sched⟩ := hd
    cases sched with
    | none => simp [specsDefinedList] at h
    | some sc =>
      simp only [specsDefinedList, Bool.and_eq_true] at h
      have h1 := hIH cond sc (List.mem_cons_self _ _) (l ++ cond.toList) h.1
      have h2 := ih (l ++ cond.toList ++ visitOrder sc)
        (fun c s hm l2 hs => hIH c s (List.mem_cons_of_mem _ hm) l2 hs) h.2
      simp only [List.append_assoc] at h1 h2
      simp [mutateSpecs, mutateOpt_trace, h1, h2, visitOrderSpecs, List.append_assoc]

/-- The traversal `mutate` hands a stateful mutator the embedded expressions exactly in
the order the design document prescribes: splits, then bounds, then
specializations (condition, then nested record, recursively), then the
reduction domain. -/
theorem mutate_trace (l : List Expr) (sc : ScheduleContents)
    (h : specsDefinedB sc = true) :
    ScheduleContents.mutate traceMutator sc l = .ok (sc, l ++ visitOrder sc) := by
  induction sc using ScheduleContents.inductionOn generalizing l with
  | h sl cl sp d sd b specs w rd mz t ar hIH =>
    have hs : specsDefinedList specs = true := h
    have hspecs := mutateSpecs_trace (l ++ splitFactors sp ++ boundExprs b) specs
      (fun c s hm l2 hdef => hIH c s hm l2 hdef) hs
    simp only [List.append_assoc] at hspecs
    simp [ScheduleContents.mutate, mutateSplits_trace, mutateBounds_trace, hspecs,
      rdomMutate_trace, visitOrder, List.append_assoc]

/-! ## Totality of `mutate` under the specialization invariant -/

theorem mutateSpecs_total {σ : Type} (m : Mutator σ) (specs : List Specialization) (st : σ)
    (hIH : ∀ c s, (c, some s) ∈ specs → ∀ (st2 : σ), specsDefinedB s = true →
      ∃ s2 st3, ScheduleContents.mutate m s st2 = .ok (s2, st3) ∧ specsDefinedB s2 = true)
    (h : specsDefinedList specs = true) :
    ∃ specs2 st2, mutateSpecs m specs st = .ok (specs2, st2) ∧
      specsDefinedList specs2 = true := by
  induction specs generalizing st with
  | nil => exact ⟨[], st, rfl, rfl⟩
  | cons hd tl ih =>
    obtain ⟨cond, sched⟩ := hd
    cases sched with
    | none => simp [specsDefinedList] at h
    | some sc =>
      simp only [specsDefinedList, Bool.and_eq_true] at h
      obtain ⟨s2, st3, hmut, hdef⟩ :=
        hIH cond sc (List.mem_cons_self _ _) (mutateOpt m st cond).1 h.1
      obtain ⟨tl2, st4, htl, htl2⟩ :=
        ih st3 (fun c s hm st2 hs => hIH c s (List.mem_cons_of_mem _ hm) st2 hs) h.2
      refine ⟨((mutateOpt m st cond).2, some s2) :: tl2, st4, ?_, ?_⟩
      · simp [mutateSpecs, hmut, htl]
      · simp [specsDefinedList, hdef, htl2]

/-- Under the invariant that every reachable specialization has a defined
nested schedule, `mutate` never fails (the internal assertion never fires)
and its result satisfies the invariant again. -/
theorem mutate_total {σ : Type} (m : Mutator σ) (sc : ScheduleContents) (st : σ)
    (h : specsDefinedB sc = true) :
    ∃ sc2 st2, ScheduleContents.mutate m sc st = .ok (sc2, st2) ∧
      specsDefinedB sc2 = true := by
  induction sc using ScheduleContents.inductionOn generalizing st with
  | h sl cl sp d sd b specs w rd mz t ar hIH =>
    have hs : specsDefinedList specs = true := h
    obtain ⟨specs2, st2, hspecs, hdef⟩ :=
      mutateSpecs_total m specs (mutateBounds m (mutateSplits m st sp).1 b).1
        (fun c s hm st2 hdef => hIH c s hm st2 hdef) hs
    refine ⟨ScheduleContents.mk sl cl (mutateSplits m st sp).2 d sd
      (mutateBounds m (mutateSplits m st sp).1 b).2 specs2 w
      (rdomMutate m st2 rd).2 mz t ar, (rdomMutate m st2 rd).1, ?_, hdef⟩
    simp [ScheduleContents.mutate, hspecs]

/-! ## `accept` lemmas -/

theorem acceptOpt_trace (l : List Expr) (o : Option Expr) :
    acceptOpt traceVisitor l o = l ++ o.toList := by
  cases o <;> simp [acceptOpt, traceVisitor]

theorem accept_splits_fold (l : List Expr) (sp : List Split) :
    sp.foldl (fun a s => acceptOpt traceVisitor a s.factor) l = l ++ splitFactors sp := by
  induction sp generalizing l with
  | nil => simp [splitFactors]
  | cons s rest ih =>
    rw [List.foldl_cons, acceptOpt_trace, ih]
    simp only [splitFactors]
    simp [List.append_assoc]

theorem accept_bounds_fold (l : List Expr) (b : List Bound) :
    b.foldl (fun a bd => acceptOpt traceVisitor (acceptOpt traceVisitor a bd.min) bd.extent) l =
      l ++ boundExprs b := by
  induction b generalizing l with
  | nil => simp [boundExprs]
  | cons bd rest ih =>
    rw [List.foldl_cons, acceptOpt_trace, acceptOpt_trace, ih]
    simp only [boundExprs]
    simp [List.append_assoc]

theorem acceptConds_trace (l : List Expr) (specs : List Specialization)
    (h : specs.all (fun s => s.1.isSome) = true) :
    acceptConds traceVisitor specs l = .ok (l ++ condExprs specs) := by
  induction specs generalizing l with
  | nil => simp [acceptConds, condExprs]
  | cons hd tl ih =>
    obtain ⟨cond, sched⟩ := hd
    simp only [List.all_cons, Bool.and_eq_true] at h
    cases cond with
    | none => simp at h
    | some c =>
      simp [acceptConds, traceVisitor, ih _ h.2, condExprs, List.append_assoc]

/-- With every top-level condition defined, `accept` visits exactly the
defined top-level split factors, then the defined bound mins/extents, then
the conditions, in order. -/
theorem acceptTrace_eq (sc : ScheduleContents) (h : condsDefinedTop sc = true) :
    acceptTrace sc = .ok (acceptOrderTop sc) := by
  unfold acceptTrace Schedule.accept
  simp only [accept_splits_fold, accept_bounds_fold]
  rw [acceptConds_trace _ _ h]
  simp [acceptOrderTop, List.append_assoc]

theorem acceptConds_ok {σ : Type} (v : Visitor σ) (specs : List Specialization) (st : σ)
    (h : specs.all (fun s => s.1.isSome) = true) :
    ∃ r, acceptConds v specs st = .ok r := by
  induction specs generalizing st with
  | nil => exact ⟨st, rfl⟩
  | cons hd tl ih =>
    obtain ⟨cond, sched⟩ := hd
    simp only [List.all_cons, Bool.and_eq_true] at h
    cases cond with
    | none => simp at h
    | some c => simpa [acceptConds] using ih (v st c) h.2

/-- With every top-level condition defined, `accept` raises no error. -/
theorem accept_ok {σ : Type} (v : Visitor σ) (sc : ScheduleContents) (st : σ)
    (h : condsDefinedTop sc = true) :
    ∃ r, Schedule.accept v sc st = .ok r := by
  unfold Schedule.accept
  exact acceptConds_ok v sc.specializations _ h

theorem acceptConds_err {σ : Type} (v : Visitor σ) (specs : List Specialization) (st : σ)
    (h : specs.all (fun s => s.1.isSome) = false) :
    acceptConds v specs st =
      .error "dereference of undefined Expr in Schedule::accept" := by
  induction specs generalizing st with
  | nil => simp at h
  | cons hd tl ih =>
    obtain ⟨cond, sched⟩ := hd
    cases cond with
    | none => rfl
    | some c =>
      simp only [List.all_cons, Option.isSome_some, Bool.true_and] at h
      simpa [acceptConds] using ih (v st c) h

/-- With some specialization condition undefined, `accept` reaches the
undefined-dereference branch, whatever the visitor does. -/
theorem accept_err {σ : Type} (v : Visitor σ) (sc : ScheduleContents) (st : σ)
    (h : condsDefinedTop sc = false) :
    Schedule.accept v sc st =
      .error "dereference of undefined Expr in Schedule::accept" := by
  unfold Schedule.accept
  exact acceptConds_err v sc.specializations _ h

/-! ## Association-list lemmas -/

theorem alistFind_insert {κ ν : Type} [DecidableEq κ] (l : List (κ × ν)) (k k2 : κ) (v : ν) :
    alistFind (alistInsert l k v) k2 = if k2 = k then some v else alistFind l k2 := by
  induction l with
  | nil =>
    by_cases hk : k2 = k
    · simp [alistInsert, alistFind, hk]
    · simp [alistInsert, alistFind, hk, Ne.symm hk]
  | cons hd tl ih =>
    obtain ⟨k3, v3⟩ := hd
    by_cases h3 : k3 = k
    · subst h3
      by_cases hk : k2 = k3
      · simp [alistInsert, alistFind, hk]
      · simp [alistInsert, alistFind, hk, Ne.symm hk]
    · by_cases hk2 : k3 = k2
      · subst hk2
        simp [alistInsert, h3, alistFind, Ne.symm h3]
      · simp [alistInsert, h3, alistFind, hk2, ih]

theorem alistFind_none_of_hasKey_false {κ ν : Type} [DecidableEq κ]
    {l : List (κ × ν)} {k : κ} (h : alistHasKey l k = false) :
    alistFind l k = none := by
  induction l with
  | nil => rfl
  | cons hd tl ih =>
    obtain ⟨k2, v2⟩ := hd
    simp only [alistHasKey, Bool.or_eq_false_iff, decide_eq_false_iff_not] at h
    simp [alistFind, h.1, ih h.2]

theorem alistHasKey_false_of_find_none {κ ν : Type} [DecidableEq κ]
    {l : List (κ × ν)} {k : κ} (h : alistFind l k = none) :
    alistHasKey l k = false := by
  induction l with
  | nil => rfl
  | cons hd tl ih =>
    obtain ⟨k2, v2⟩ := hd
    by_cases hk : k2 = k
    · simp [alistFind, hk] at h
    · simp only [alistFind, if_neg hk] at h
      simp [alistHasKey, hk, ih h]

theorem alistInsert_length_of_hasKey_false {κ ν : Type} [DecidableEq κ]
    {l : List (κ × ν)} {k : κ} (v : ν) (h : alistHasKey l k = false) :
    (alistInsert l k v).length = l.length + 1 := by
  induction l with
  | nil => rfl
  | cons hd tl ih =>
    obtain ⟨k2, v2⟩ := hd
    simp only [alistHasKey, Bool.or_eq_false_iff, decide_eq_false_iff_not] at h
    simp [alistInsert, h.1, ih h.2]

theorem alistHasKey_of_mem {κ ν : Type} [DecidableEq κ] {l : List (κ × ν)} {k : κ} {v : ν}
    (hm : (k, v) ∈ l) : alistHasKey l k = true := by
  induction l with
  | nil => cases hm
  | cons hd tl ih =>
    obtain ⟨k2, v2⟩ := hd
    rcases List.mem_cons.mp hm with h | h
    · injection h with h1 _
      subst h1
      simp [alistHasKey]
    · simp [alistHasKey, ih h]

theorem alistFind_mem {κ ν : Type} [DecidableEq κ] {l : List (κ × ν)} {k : κ} {v : ν}
    (hm : (k, v) ∈ l) (hnd : alistKeysNodup l = true) :
    alistFind l k = some v := by
  induction l with
  | nil => cases hm
  | cons hd tl ih =>
    obtain ⟨k2, v2⟩ := hd
    simp only [alistKeysNodup, Bool.and_eq_true, Bool.not_eq_true'] at hnd
    rcases List.mem_cons.mp hm with h | h
    · injection h with h1 h2
      subst h1; subst h2
      simp [alistFind]
    · have hk : k2 ≠ k := by
        intro he
        subst he
        rw [alistHasKey_of_mem h] at hnd
        exact absurd hnd.1 (by simp)
      simp [alistFind, hk, ih h hnd.2]

/-! ## Wrapper-copy lemmas -/

theorem copyWrappers_length (src : List (String × Nat)) (dstW : List (String × Nat))
    (st : CloneState) (hnd : alistKeysNodup src = true)
    (hdisj : ∀ k, alistHasKey src k = true → alistHasKey dstW k = false) :
    (copyWrappers src dstW st).1.length = dstW.length + src.length := by
  induction src generalizing dstW st with
  | nil => simp [copyWrappers]
  | cons hd tl ih =>
    obtain ⟨name, fid⟩ := hd
    simp only [alistKeysNodup, Bool.and_eq_true, Bool.not_eq_true'] at hnd
    have hnm : alistHasKey dstW name = false := hdisj name (by simp [alistHasKey])
    have hstep : ∀ (c : Nat) k, alistHasKey tl k = true →
        alistHasKey (alistInsert dstW name c) k = false := by
      intro c k hk
      have hkname : k ≠ name := by
        intro he
        subst he
        rw [hk] at hnd
        exact absurd hnd.1 (by simp)
      apply alistHasKey_false_of_find_none
      rw [alistFind_insert, if_neg hkname]
      exact alistFind_none_of_hasKey_false (hdisj k (by simp [alistHasKey, hk]))
    cases hfind : alistFind st.memo fid with
    | some c =>
      simp only [copyWrappers, hfind]
      rw [ih _ _ hnd.2 (hstep c), alistInsert_length_of_hasKey_false _ hnm]
      simp only [List.length_cons]
      omega
    | none =>
      simp only [copyWrappers, hfind, deep_copy_function_contents_helper]
      rw [ih _ _ hnd.2 (hstep st.nextId), alistInsert_length_of_hasKey_false _ hnm]
      simp only [List.length_cons]
      omega

theorem copyWrappers_memo_mono (src : List (String × Nat)) (dstW : List (String × Nat))
    (st : CloneState) {x y : Nat} (h : alistFind st.memo x = some y) :
    alistFind (copyWrappers src dstW st).2.memo x = some y := by
  induction src generalizing dstW st with
  | nil => simpa [copyWrappers] using h
  | cons hd tl ih =>
    obtain ⟨name, fid⟩ := hd
    cases hfind : alistFind st.memo fid with
    | some c =>
      simp only [copyWrappers, hfind]
      exact ih _ _ h
    | none =>
      simp only [copyWrappers, hfind, deep_copy_function_contents_helper]
      apply ih
      have hx : x ≠ fid := by
        intro he
        subst he
        rw [h] at hfind
        cases hfind
      simp only [alistFind_insert, if_neg hx]
      exact h

theorem copyWrappers_persist (src : List (String × Nat)) (dstW : List (String × Nat))
    (st : CloneState) {name : String} (h : alistHasKey src name = false) :
    alistFind (copyWrappers src dstW st).1 name = alistFind dstW name := by
  induction src generalizing dstW st with
  | nil => simp [copyWrappers]
  | cons hd tl ih =>
    obtain ⟨k, fid⟩ := hd
    simp only [alistHasKey, Bool.or_eq_false_iff, decide_eq_false_iff_not] at h
    cases hfind : alistFind st.memo fid with
    | some c =>
      simp only [copyWrappers, hfind]
      rw [ih _ _ h.2, alistFind_insert, if_neg (fun he => h.1 he.symm)]
    | none =>
      simp only [copyWrappers, hfind, deep_copy_function_contents_helper]
      rw [ih _ _ h.2, alistFind_insert, if_neg (fun he => h.1 he.symm)]

/-- Every wrapper entry of the source ends up, in the copied wrapper map,
bound to exactly the clone the final memo map records for its stage: the
mechanism that makes two wrappers of one stage share one clone. -/
theorem copyWrappers_mem_lookup (src : List (String × Nat)) (dstW : List (String × Nat))
    (st : CloneState) (hnd : alistKeysNodup src = true)
    {name : String} {fid : Nat} (hm : (name, fid) ∈ src) :
    ∃ c, alistFind (copyWrappers src dstW st).1 name = some c ∧
      alistFind (copyWrappers src dstW st).2.memo fid = some c := by
  induction src generalizing dstW st with
  | nil => cases hm
  | cons hd tl ih =>
    obtain ⟨k, kid⟩ := hd
    simp only [alistKeysNodup, Bool.and_eq_true, Bool.not_eq_true'] at hnd
    rcases List.mem_cons.mp hm with h | h
    · injection h with h1 h2
      subst h1
      subst h2
      cases hfind : alistFind st.memo fid with
      | some c =>
        refine ⟨c, ?_, ?_⟩
        · simp only [copyWrappers, hfind]
          rw [copyWrappers_persist _ _ _ hnd.1, alistFind_insert, if_pos rfl]
        · simp only [copyWrappers, hfind]
          exact copyWrappers_memo_mono _ _ _ hfind
      | none =>
        refine ⟨st.nextId, ?_, ?_⟩
        · simp only [copyWrappers, hfind, deep_copy_function_contents_helper]
          rw [copyWrappers_persist _ _ _ hnd.1, alistFind_insert, if_pos rfl]
        · simp only [copyWrappers, hfind, deep_copy_function_contents_helper]
          apply copyWrappers_memo_mono
          simp [alistFind_insert]
    · cases hfind : alistFind st.memo kid with
      | some c =>
        simp only [copyWrappers, hfind]
        exact ih _ _ hnd.2 h
      | none =>
        simp only [copyWrappers, hfind, deep_copy_function_contents_helper]
        exact ih _ _ hnd.2 h

/-! ## Deep-copy lemmas -/

/-- A successful `deep_copy_defined` value-copies placement, splits, dims,
storage dims, bounds and flags verbatim, copies the reduction domain
through its own `deep_copy`, and installs the memo-copied wrapper map. -/
theorem deep_copy_defined_fields {sc c : ScheduleContents} {st st2 : CloneState}
    (h : deep_copy_defined sc st = .ok (c, st2)) :
    c.store_level = sc.store_level ∧ c.compute_level = sc.compute_level ∧
    c.splits = sc.splits ∧ c.dims = sc.dims ∧ c.storage_dims = sc.storage_dims ∧
    c.bounds = sc.bounds ∧ c.reduction_domain = rdomDeepCopy sc.reduction_domain ∧
    c.memoized = sc.memoized ∧ c.touched = sc.touched ∧
    c.allow_race_conditions = sc.allow_race_conditions ∧
    c.wrappers = (copyWrappers sc.wrappers [] st).1 := by
  cases sc with
  | mk sl cl sp d sd b specs w rd mz t ar =>
    simp only [deep_copy_defined] at h
    by_cases hlen : (copyWrappers w [] st).1.length = w.length
    · rw [if_pos hlen] at h
      cases hcs : copySpecs specs (copyWrappers w [] st).2 with
      | error e =>
        rw [hcs] at h
        exact Except.noConfusion h
      | ok p =>
        obtain ⟨specs2, st3⟩ := p
        rw [hcs] at h
        simp only [Except.ok.injEq, Prod.mk.injEq] at h
        obtain ⟨hc, hst⟩ := h
        subst hc
        exact ⟨rfl, rfl, rfl, rfl, rfl, rfl, rfl, rfl, rfl, rfl, rfl⟩
    · rw [if_neg hlen] at h
      exact Except.noConfusion h

theorem copySpecs_total (specs : List Specialization) (st : CloneState)
    (hIH : ∀ c s, (c, some s) ∈ specs → ∀ (st2 : CloneState), wfWrapB s = true →
      ∃ s2 st3, deep_copy_defined s st2 = .ok (s2, st3) ∧
        (specsDefinedB s = true → specsDefinedB s2 = true))
    (h : wfWrapList specs = true) :
    ∃ specs2 st2, copySpecs specs st = .ok (specs2, st2) ∧
      (specsDefinedList specs = true → specsDefinedList specs2 = true) := by
  induction specs generalizing st with
  | nil => exact ⟨[], st, rfl, fun _ => rfl⟩
  | cons hd tl ih =>
    obtain ⟨cond, sched⟩ := hd
    cases sched with
    | none =>
      have h2 : wfWrapList tl = true := h
      obtain ⟨tl2, st2, htl, _⟩ :=
        ih st (fun c s hm => hIH c s (List.mem_cons_of_mem _ hm)) h2
      refine ⟨(cond, none) :: tl2, st2, ?_, ?_⟩
      · simp [copySpecs, htl]
      · intro hfalse
        simp [specsDefinedList] at hfalse
    | some sc =>
      simp only [wfWrapList, Bool.and_eq_true] at h
      obtain ⟨s2, st3, hdc, hpres⟩ := hIH cond sc (List.mem_cons_self _ _) st h.1
      obtain ⟨tl2, st4, htl, htlpres⟩ :=
        ih st3 (fun c s hm => hIH c s (List.mem_cons_of_mem _ hm)) h.2
      refine ⟨(cond, some s2) :: tl2, st4, ?_, ?_⟩
      · simp [copySpecs, hdc, htl]
      · intro hdef
        simp only [specsDefinedList, Bool.and_eq_true] at hdef ⊢
        exact ⟨hpres hdef.1, htlpres hdef.2⟩

/-- Under the `std::map` distinct-keys invariant, `deep_copy_defined`
succeeds (in particular the wrapper-count assertion holds), and it
preserves the defined-nested-schedules invariant. -/
theorem deep_copy_defined_total (sc : ScheduleContents) (st : CloneState)
    (h : wfWrapB sc = true) :
    ∃ c st2, deep_copy_defined sc st = .ok (c, st2) ∧
      (specsDefinedB sc = true → specsDefinedB c = true) := by
  induction sc using ScheduleContents.inductionOn generalizing st with
  | h sl cl sp d sd b specs w rd mz t ar hIH =>
    have h2 : alistKeysNodup w = true ∧ wfWrapList specs = true := by
      simpa [wfWrapB] using h
    have hlen : (copyWrappers w [] st).1.length = w.length := by
      rw [copyWrappers_length w [] st h2.1 (fun k _ => rfl)]
      simp
    obtain ⟨specs2, st2, hcs, hpres⟩ := copySpecs_total specs (copyWrappers w [] st).2
      (fun c s hm st3 hwf => hIH c s hm st3 hwf) h2.2
    refine ⟨.mk sl cl sp d sd b specs2 (copyWrappers w [] st).1 (rdomDeepCopy rd) mz t ar,
      st2, ?_, ?_⟩
    · simp only [deep_copy_defined]
      rw [if_pos hlen, hcs]
    · intro hdef
      exact hpres hdef

theorem copySpecs_err (specs : List Specialization) (st : CloneState) {e : String}
    (hIH : ∀ c s, (c, some s) ∈ specs → ∀ (st2 : CloneState) (e2 : String),
      deep_copy_defined s st2 = .error e2 →
      e2 = "internal_assert failed: wrappers size mismatch")
    (h : copySpecs specs st = .error e) :
    e = "internal_assert failed: wrappers size mismatch" := by
  induction specs generalizing st with
  | nil => exact Except.noConfusion h
  | cons hd tl ih =>
    obtain ⟨cond, sched⟩ := hd
    cases sched with
    | none =>
      simp only [copySpecs] at h
      cases htl : copySpecs tl st with
      | error e2 =>
        rw [htl] at h
        injection h with h1
        rw [h1] at htl
        exact ih st (fun c s hm => hIH c s (List.mem_cons_of_mem _ hm)) htl
      | ok p =>
        obtain ⟨rest2, st2⟩ := p
        rw [htl] at h
        exact Except.noConfusion h
    | some sc =>
      simp only [copySpecs] at h
      cases hdc : deep_copy_defined sc st with
      | error e2 =>
        rw [hdc] at h
        injection h with h1
        exact h1.symm.trans (hIH cond sc (List.mem_cons_self _ _) st e2 hdc)
      | ok p =>
        obtain ⟨s2, st2⟩ := p
        rw [hdc] at h
        replace h : (match copySpecs tl st2 with
          | Except.error e => Except.error e
          | Except.ok (rest2, st3) => Except.ok ((cond, some s2) :: rest2, st3)) =
            Except.error e := h
        cases htl : copySpecs tl st2 with
        | error e2 =>
          rw [htl] at h
          injection h with h1
          rw [h1] at htl
          exact ih st2 (fun c s hm => hIH c s (List.mem_cons_of_mem _ hm)) htl
        | ok q =>
          obtain ⟨rest2, st3⟩ := q
          rw [htl] at h
          exact Except.noConfusion h

/-- The only diagnostic `deep_copy_defined` can ever raise is the
wrapper-count assertion; in particular it never raises the
"Cannot deep-copy undefined Schedule" diagnostic. -/
theorem deep_copy_defined_err (sc : ScheduleContents) :
    ∀ (st : CloneState) (e : String), deep_copy_defined sc st = .error e →
      e = "internal_assert failed: wrappers size mismatch" := by
  induction sc using ScheduleContents.inductionOn with
  | h sl cl sp d sd b specs w rd mz t ar hIH =>
    intro st e h
    simp only [deep_copy_defined] at h
    by_cases hlen : (copyWrappers w [] st).1.length = w.length
    · rw [if_pos hlen] at h
      cases hcs : copySpecs specs (copyWrappers w [] st).2 with
      | error e2 =>
        rw [hcs] at h
        injection h with h1
        exact h1.symm.trans (copySpecs_err specs _ (fun c s hm => hIH c s hm) hcs)
      | ok p =>
        obtain ⟨specs2, st3⟩ := p
        rw [hcs] at h
        exact Except.noConfusion h
    · rw [if_neg hlen] at h
      injection h with h1
      exact h1.symm

/-! ## Record-surgery helper lemmas -/

theorem setSplits_splits (sc : ScheduleContents) (sp : List Split) :
    (sc.setSplits sp).splits = sp := by cases sc; rfl

theorem setSplits_specializations (sc : ScheduleContents) (sp : List Split) :
    (sc.setSplits sp).specializations = sc.specializations := by cases sc; rfl

theorem setBounds_specializations (sc : ScheduleContents) (b2 : List Bound) :
    (sc.setBounds b2).specializations = sc.specializations := by cases sc; rfl

theorem setSpecializations_splits (sc : ScheduleContents) (l : List Specialization) :
    (sc.setSpecializations l).splits = sc.splits := by cases sc; rfl

theorem setWrappers_specsDefinedB (sc : ScheduleContents) (w : List (String × Nat)) :
    specsDefinedB (sc.setWrappers w) = specsDefinedB sc := by cases sc; rfl

theorem specsDefinedB_eq (sc : ScheduleContents) :
    specsDefinedB sc = specsDefinedList sc.specializations := by cases sc; rfl

theorem specsDefinedList_append (l1 l2 : List Specialization) :
    specsDefinedList (l1 ++ l2) = (specsDefinedList l1 && specsDefinedList l2) := by
  induction l1 with
  | nil => simp [specsDefinedList]
  | cons hd tl ih =>
    obtain ⟨c, s⟩ := hd
    cases s with
    | none => simp [specsDefinedList]
    | some x => simp [specsDefinedList, ih, Bool.and_assoc]

theorem sentinelImage_dims (s0 : Expr) (sc : ScheduleContents) :
    (sentinelImage s0 sc).dims = sc.dims := by cases sc; rfl

theorem sentinelImage_storage_dims (s0 : Expr) (sc : ScheduleContents) :
    (sentinelImage s0 sc).storage_dims = sc.storage_dims := by cases sc; rfl

/-! ## Heap (handle-aliasing) lemmas -/

theorem heapSplits_setSplits_self (h : Heap) (p : Nat) (sc : ScheduleContents)
    (sp : List Split) (hp : h[p]? = some sc) :
    heapSplits (heapSetSplits h p sp) p = some sp := by
  have hlt : p < h.length := (List.getElem?_eq_some_iff.mp hp).1
  simp [heapSetSplits, hp, heapSplits, List.getElem?_set_self hlt, setSplits_splits]

theorem heapSplits_setSplits_ne (h : Heap) (p q : Nat) (sp : List Split) (hne : q ≠ p) :
    heapSplits (heapSetSplits h q sp) p = heapSplits h p := by
  cases hq : h[q]? with
  | none => simp [heapSetSplits, hq]
  | some sc => simp [heapSetSplits, hq, heapSplits, List.getElem?_set_ne hne]

/-! ## Claim theorems -/

/-- C2: `add_specialization(condition)` allocates a fresh nested record,
snapshots into it the parent's store/compute placement, splits, dims,
storage dims, bounds, reduction domain and three flags (and nothing of the
parent's specialization list), appends `(condition, nested)` to the ordered
specialization list, and returns the appended entry; afterwards, writing
the parent's splits does not touch the snapshot, and writing the snapshot's
splits through the returned entry does not touch the parent's splits. -/
theorem C2_add_specialization (sc : ScheduleContents) (cond : Option Expr) :
    (Schedule.add_specialization sc cond).1.specializations =
      sc.specializations ++ [(Schedule.add_specialization sc cond).2] ∧
    (Schedule.add_specialization sc cond).1.specializations.getLast? =
      some (Schedule.add_specialization sc cond).2 ∧
    (Schedule.add_specialization sc cond).2.condition = cond ∧
    (∃ n, (Schedule.add_specialization sc cond).2.schedule = some n ∧
      n.store_level = sc.store_level ∧ n.compute_level = sc.compute_level ∧
      n.splits = sc.splits ∧ n.dims = sc.dims ∧ n.storage_dims = sc.storage_dims ∧
      n.bounds = sc.bounds ∧ n.reduction_domain = sc.reduction_domain ∧
      n.memoized = sc.memoized ∧ n.touched = sc.touched ∧
      n.allow_race_conditions = sc.allow_race_conditions ∧
      n.specializations = [] ∧ n.wrappers = []) ∧
    (Schedule.add_specialization sc cond).1.splits = sc.splits ∧
    (∀ sp2, (((Schedule.add_specialization sc cond).1.setSplits sp2).specializations) =
      (Schedule.add_specialization sc cond).1.specializations) ∧
    (∀ b2, (((Schedule.add_specialization sc cond).1.setBounds b2).specializations) =
      (Schedule.add_specialization sc cond).1.specializations) ∧
    (∀ sp2,
      (writeLastSpecSplits (Schedule.add_specialization sc cond).1 sp2).splits =
        sc.splits) ∧
    (∀ sp2, ∃ n2,
      (writeLastSpecSplits (Schedule.add_specialization sc cond).1 sp2
        ).specializations.getLast? = some (cond, some n2) ∧ n2.splits = sp2) := by
  cases sc with
  | mk sl cl sp d sd b specs w rd mz t ar =>
    refine ⟨rfl, List.getLast?_concat _, rfl,
      ⟨_, rfl, rfl, rfl, rfl, rfl, rfl, rfl, rfl, rfl, rfl, rfl, rfl, rfl⟩,
      rfl, ?_, ?_, ?_, ?_⟩
    · intro sp2
      rw [setSplits_specializations]
    · intro b2
      rw [setBounds_specializations]
    · intro sp2
      simp [writeLastSpecSplits, Schedule.add_specialization,
        ScheduleContents.specializations, ScheduleContents.setSpecializations,
        ScheduleContents.splits, List.getLast?_concat]
    · intro sp2
      refine ⟨ScheduleContents.mk sl cl sp2 d sd b [] [] rd mz t ar, ?_, rfl⟩
      simp [writeLastSpecSplits, Schedule.add_specialization,
        ScheduleContents.specializations, ScheduleContents.setSpecializations,
        ScheduleContents.setSplits, List.getLast?_concat, List.dropLast_concat]

/-- C3: `add_wrapper(name, stage)`: a fresh name is inserted with no
diagnostic; re-inserting under the empty (default) name overwrites the
entry and emits exactly one non-fatal warning; re-inserting under a
non-empty name aborts with a fatal diagnostic and produces no map update. -/
theorem C3_add_wrapper (sc : ScheduleContents) (f : String) (w1 : Nat) :
    (alistHasKey sc.wrappers f = false →
      Schedule.add_wrapper sc f w1 =
        .ok (sc.setWrappers (alistInsert sc.wrappers f w1), [])) ∧
    (alistHasKey sc.wrappers f = true → f = "" →
      Schedule.add_wrapper sc f w1 =
        .ok (sc.setWrappers (alistInsert sc.wrappers f w1),
          ["Replacing previous definition of global wrapper in function \"" ++ f ++
            "\""])) ∧
    (alistHasKey sc.wrappers f = true → f ≠ "" →
      Schedule.add_wrapper sc f w1 =
        .error ("Wrapper redefinition in function \"" ++ f ++ "\" is not allowed")) ∧
    alistFind (alistInsert sc.wrappers f w1) f = some w1 := by
  refine ⟨?_, ?_, ?_, ?_⟩
  · intro h
    simp [Schedule.add_wrapper, h]
  · intro h hf
    subst hf
    simp [Schedule.add_wrapper, h]
  · intro h hf
    simp [Schedule.add_wrapper, h, hf]
  · simp [alistFind_insert]

/-- C3 witness: on a record with a default wrapper `"" ↦ 1` and a named
wrapper `"f" ↦ 2`, the three `add_wrapper` outcomes at concrete inputs. -/
theorem C3_add_wrapper_witness :
    alistHasKey scW3.wrappers "g" = false ∧
    Schedule.add_wrapper scW3 "g" 5 =
      .ok (scW3.setWrappers (alistInsert scW3.wrappers "g" 5), []) ∧
    alistHasKey scW3.wrappers "" = true ∧
    Schedule.add_wrapper scW3 "" 5 =
      .ok (scW3.setWrappers (alistInsert scW3.wrappers "" 5),
        ["Replacing previous definition of global wrapper in function \"" ++ "" ++
          "\""]) ∧
    alistHasKey scW3.wrappers "f" = true ∧
    Schedule.add_wrapper scW3 "f" 5 =
      .error ("Wrapper redefinition in function \"" ++ "f" ++ "\" is not allowed") :=
  ⟨rfl, (C3_add_wrapper scW3 "g" 5).1 rfl, rfl,
    (C3_add_wrapper scW3 "" 5).2.1 rfl rfl, rfl,
    (C3_add_wrapper scW3 "f" 5).2.2.1 rfl (by decide)⟩

/-- C1 counterexample: on the record `sc0` (one split with factor 8, one
bound with min 0 / extent 16, one specialization with condition `p` whose
nested record has a split with factor 4, and a reduction domain holding
`r`), `mutate` visits the nested split factor and the reduction-domain
expression but `accept` does not — so `accept` does not visit the same
expression-bearing fields as `mutate`. -/
theorem C1_counterexample :
    acceptTrace sc0 = .ok [.lit 8, .lit 0, .lit 16, .var "p"] ∧
    mutateTrace sc0 = .ok [.lit 8, .lit 0, .lit 16, .var "p", .lit 4, .var "r"] ∧
    ([Expr.lit 8, .lit 0, .lit 16, .var "p"] : List Expr) ≠
      [.lit 8, .lit 0, .lit 16, .var "p", .lit 4, .var "r"] :=
  ⟨rfl, rfl, by decide⟩

/-- C1 (amended): `accept(visit)` visits, once each and in order, every
defined top-level split factor, every defined top-level bound min and
extent, and each top-level specialization's condition; unlike `mutate`
(which additionally recurses into nested specialization records and visits
the reduction domain's expressions — see `visitOrder`), it stops there;
`Dim` and `StorageDim` are excluded from both traversals. -/
theorem C1_accept_vs_mutate (sc : ScheduleContents)
    (h : condsDefinedTop sc = true) :
    acceptTrace sc = .ok (acceptOrderTop sc) ∧
    (specsDefinedB sc = true → mutateTrace sc = .ok (visitOrder sc)) := by
  refine ⟨acceptTrace_eq sc h, fun h2 => ?_⟩
  unfold mutateTrace
  rw [mutate_trace [] sc h2]
  rfl

/-- C1 witness: the amended theorem applied to the concrete record
`sc0`. -/
theorem C1_accept_vs_mutate_witness :
    condsDefinedTop sc0 = true ∧ specsDefinedB sc0 = true ∧
    acceptTrace sc0 = .ok (acceptOrderTop sc0) ∧
    mutateTrace sc0 = .ok (visitOrder sc0) :=
  ⟨rfl, rfl, (C1_accept_vs_mutate sc0 rfl).1, (C1_accept_vs_mutate sc0 rfl).2 rfl⟩

/-- C5: under the defined-nested-schedules invariant, `mutate` with the
identity transform leaves the record and the mutator state unchanged
(undefined fields are never materialized); `mutate` with a sentinel
transform produces exactly `sentinelImage`: every defined split factor,
bound min/extent, specialization condition at every depth and
reduction-domain expression becomes the sentinel, undefined fields stay
undefined, and `Dim`/`StorageDim` descriptors are untouched; and the
visitation order is exactly splits, then bounds, then specializations
(condition then nested record), then reduction domain (`visitOrder`). -/
theorem C5_mutate_contract {σ : Type} (st : σ) (sentinel : Expr) (sc : ScheduleContents)
    (h : specsDefinedB sc = true) :
    ScheduleContents.mutate idMutator sc st = .ok (sc, st) ∧
    ScheduleContents.mutate (sentMutator sentinel) sc st =
      .ok (sentinelImage sentinel sc, st) ∧
    (sentinelImage sentinel sc).dims = sc.dims ∧
    (sentinelImage sentinel sc).storage_dims = sc.storage_dims ∧
    mutateTrace sc = .ok (visitOrder sc) := by
  refine ⟨mutate_id st sc h, mutate_sent sentinel st sc h,
    sentinelImage_dims sentinel sc, sentinelImage_storage_dims sentinel sc, ?_⟩
  unfold mutateTrace
  rw [mutate_trace [] sc h]
  rfl

/-- C5 witness: the theorem applied to the concrete record `sc0` with
sentinel `99`. -/
theorem C5_mutate_contract_witness :
    specsDefinedB sc0 = true ∧
    ScheduleContents.mutate idMutator sc0 (0 : Nat) = .ok (sc0, 0) ∧
    ScheduleContents.mutate (sentMutator (.lit 99)) sc0 (0 : Nat) =
      .ok (sentinelImage (.lit 99) sc0, 0) ∧
    mutateTrace sc0 = .ok (visitOrder sc0) :=
  ⟨rfl, (C5_mutate_contract 0 (.lit 99) sc0 rfl).1,
    (C5_mutate_contract 0 (.lit 99) sc0 rfl).2.1,
    (C5_mutate_contract 0 (.lit 99) sc0 rfl).2.2.2.2⟩

/-- C10: `accept` guards split factors and bound mins/extents with a
definedness check but dereferences each specialization condition
unconditionally, so it is total exactly when every top-level specialization
condition is defined — and errs in the undefined-dereference branch
otherwise; `mutate`, which guards the condition too, succeeds regardless of
condition definedness (given the nested-schedule invariant). -/
theorem C10_accept_guards {σ : Type} (v : Visitor σ) (m : Mutator σ) (st : σ)
    (sc : ScheduleContents) :
    (condsDefinedTop sc = true → ∃ r, Schedule.accept v sc st = .ok r) ∧
    (condsDefinedTop sc = false →
      Schedule.accept v sc st =
        .error "dereference of undefined Expr in Schedule::accept") ∧
    (specsDefinedB sc = true →
      ∃ sc2 st2, ScheduleContents.mutate m sc st = .ok (sc2, st2)) := by
  refine ⟨fun h => accept_ok v sc st h, fun h => accept_err v sc st h, fun h => ?_⟩
  obtain ⟨sc2, st2, hm, _⟩ := mutate_total m sc st h
  exact ⟨sc2, st2, hm⟩

/-- C10 witness: the theorem applied to `sc0` (all conditions defined:
`accept` succeeds) and to `scU` (a specialization with an undefined
condition but defined nested schedule: `accept` hits the
undefined-dereference branch while `mutate` succeeds). -/
theorem C10_accept_guards_witness :
    condsDefinedTop sc0 = true ∧
    (∃ r, Schedule.accept (fun (n : Nat) _ => n) sc0 0 = .ok r) ∧
    condsDefinedTop scU = false ∧
    Schedule.accept (fun (n : Nat) _ => n) scU 0 =
      .error "dereference of undefined Expr in Schedule::accept" ∧
    specsDefinedB scU = true ∧
    (∃ sc2 st2, ScheduleContents.mutate idMutator scU (0 : Nat) = .ok (sc2, st2)) :=
  ⟨rfl, (C10_accept_guards (fun n _ => n) idMutator 0 sc0).1 rfl, rfl,
    (C10_accept_guards (fun n _ => n) idMutator 0 scU).2.1 rfl, rfl,
    (C10_accept_guards (fun n _ => n) idMutator 0 scU).2.2 rfl⟩

/-- C4: deep copy preserves sharing through the memo map: when two wrapper
entries `a` and `b` of a schedule reference the same stage `T`, the clone
produced with a fresh memo map binds `a` and `b` to one and the same stage
clone; and per wrapper entry, a stage already in the memo is reused with no
fresh clone, while a stage not in the memo is cloned by the stage-level
primitive and recorded in the memo before the traversal continues. -/
theorem C4_deep_copy_sharing (sc : ScheduleContents) (a b : String) (T : Nat)
    (hnd : wfWrapB sc = true)
    (ha : (a, T) ∈ sc.wrappers) (hb : (b, T) ∈ sc.wrappers) :
    (∃ clone st2, deep_copy_schedule_contents_helper (some sc) ⟨[], 0⟩ =
        .ok (some clone, st2) ∧
      ∃ c, alistFind clone.wrappers a = some c ∧
        alistFind clone.wrappers b = some c) ∧
    (∀ name fid rest dstW (st : CloneState) c, alistFind st.memo fid = some c →
      copyWrappers ((name, fid) :: rest) dstW st =
        copyWrappers rest (alistInsert dstW name c) st) ∧
    (∀ name fid rest dstW (st : CloneState), alistFind st.memo fid = none →
      copyWrappers ((name, fid) :: rest) dstW st =
        copyWrappers rest
          (alistInsert dstW name (deep_copy_function_contents_helper fid st).1)
          ⟨alistInsert st.memo fid (deep_copy_function_contents_helper fid st).1,
            st.nextId + 1⟩) := by
  refine ⟨?_, ?_, ?_⟩
  · obtain ⟨c, st2, hdc, _⟩ := deep_copy_defined_total sc ⟨[], 0⟩ hnd
    obtain ⟨_, _, _, _, _, _, _, _, _, _, hw⟩ := deep_copy_defined_fields hdc
    have hndw : alistKeysNodup sc.wrappers = true := by
      cases sc
      simp only [wfWrapB, Bool.and_eq_true] at hnd
      simpa using hnd.1
    obtain ⟨ca, hfa, hma⟩ := copyWrappers_mem_lookup sc.wrappers [] ⟨[], 0⟩ hndw ha
    obtain ⟨cb, hfb, hmb⟩ := copyWrappers_mem_lookup sc.wrappers [] ⟨[], 0⟩ hndw hb
    have hcc : ca = cb := by
      rw [hma] at hmb
      injection hmb
    refine ⟨c, st2, by simp [deep_copy_schedule_contents_helper, hdc], ca, ?_, ?_⟩
    · rw [hw]
      exact hfa
    · rw [hw, hcc]
      exact hfb
  · intro name fid rest dstW st c h
    simp [copyWrappers, h]
  · intro name fid rest dstW st h
    simp [copyWrappers, h, deep_copy_function_contents_helper]

/-- C4 witness: on the record `scW`, whose wrappers "a" and "b" both
reference stage `7`, the sharing conclusion at a fresh memo map. -/
theorem C4_deep_copy_sharing_witness :
    wfWrapB scW = true ∧ (("a", 7) ∈ scW.wrappers) ∧ (("b", 7) ∈ scW.wrappers) ∧
    (∃ clone st2, deep_copy_schedule_contents_helper (some scW) ⟨[], 0⟩ =
        .ok (some clone, st2) ∧
      ∃ c, alistFind clone.wrappers "a" = some c ∧
        alistFind clone.wrappers "b" = some c) :=
  ⟨rfl, by decide, by decide,
    (C4_deep_copy_sharing scW "a" "b" 7 rfl (by decide) (by decide)).1⟩

/-- C6: deep-copying an undefined schedule-contents reference yields an
undefined result with no allocation (the clone state is returned untouched)
and no error; `Schedule::deep_copy` on an undefined handle aborts with the
fatal "Cannot deep-copy undefined Schedule" diagnostic; and no other error
is raised by deep_copy, mutate or accept on well-formed schedules — the
only further diagnostic deep_copy can produce at all is the internal
wrapper-count assertion. -/
theorem C6_error_handling {σ : Type} (st0 : σ) (cst : CloneState) (sc : ScheduleContents)
    (m : Mutator σ) (v : Visitor σ) :
    deep_copy_schedule_contents_helper none cst = .ok (none, cst) ∧
    Schedule.deep_copy none cst = .error "Cannot deep-copy undefined Schedule" ∧
    (wfWrapB sc = true →
      ∃ c st2, Schedule.deep_copy (some sc) cst = .ok (some c, st2)) ∧
    (specsDefinedB sc = true →
      ∃ sc2 st2, ScheduleContents.mutate m sc st0 = .ok (sc2, st2)) ∧
    (condsDefinedTop sc = true → ∃ r, Schedule.accept v sc st0 = .ok r) ∧
    (∀ e, Schedule.deep_copy (some sc) cst = .error e →
      e = "internal_assert failed: wrappers size mismatch") := by
  refine ⟨rfl, rfl, fun h => ?_, fun h => ?_, fun h => accept_ok v sc st0 h,
    fun e he => ?_⟩
  · obtain ⟨c, st2, hdc, _⟩ := deep_copy_defined_total sc cst h
    exact ⟨c, st2, by simp [Schedule.deep_copy, deep_copy_schedule_contents_helper, hdc]⟩
  · obtain ⟨sc2, st2, hm, _⟩ := mutate_total m sc st0 h
    exact ⟨sc2, st2, hm⟩
  · simp only [Schedule.deep_copy, deep_copy_schedule_contents_helper] at he
    cases hdc : deep_copy_defined sc cst with
    | error e2 =>
      rw [hdc] at he
      injection he with h1
      rw [h1] at hdc
      exact deep_copy_defined_err sc cst e hdc
    | ok p =>
      obtain ⟨c, st2⟩ := p
      rw [hdc] at he
      exact Except.noConfusion he

/-- C6 witness: the theorem applied at the clone state `⟨[], 0⟩` and the
concrete record `sc0`. -/
theorem C6_error_handling_witness :
    deep_copy_schedule_contents_helper none ⟨[], 0⟩ = .ok (none, ⟨[], 0⟩) ∧
    Schedule.deep_copy none ⟨[], 0⟩ = .error "Cannot deep-copy undefined Schedule" ∧
    wfWrapB sc0 = true ∧
    (∃ c st2, Schedule.deep_copy (some sc0) ⟨[], 0⟩ = .ok (some c, st2)) ∧
    specsDefinedB sc0 = true ∧
    (∃ sc2 st2, ScheduleContents.mutate idMutator sc0 (0 : Nat) = .ok (sc2, st2)) ∧
    condsDefinedTop sc0 = true ∧
    (∃ r, Schedule.accept (fun (n : Nat) _ => n) sc0 0 = .ok r) :=
  ⟨(C6_error_handling (0 : Nat) ⟨[], 0⟩ sc0 idMutator (fun n _ => n)).1,
    (C6_error_handling (0 : Nat) ⟨[], 0⟩ sc0 idMutator (fun n _ => n)).2.1, rfl,
    (C6_error_handling (0 : Nat) ⟨[], 0⟩ sc0 idMutator (fun n _ => n)).2.2.1 rfl, rfl,
    (C6_error_handling (0 : Nat) ⟨[], 0⟩ sc0 idMutator (fun n _ => n)).2.2.2.1 rfl, rfl,
    (C6_error_handling (0 : Nat) ⟨[], 0⟩ sc0 idMutator (fun n _ => n)).2.2.2.2.1 rfl⟩

/-- Any successful `add_wrapper` leaves the specialization list — and hence
the defined-nested-schedules invariant — untouched. -/
theorem add_wrapper_ok_specsDefined (sc : ScheduleContents) (f : String) (w1 : Nat)
    (r : ScheduleContents × List String) (hr : Schedule.add_wrapper sc f w1 = .ok r) :
    specsDefinedB r.1 = specsDefinedB sc := by
  unfold Schedule.add_wrapper at hr
  by_cases hk : alistHasKey sc.wrappers f = true
  · rw [if_pos hk] at hr
    by_cases hf : f = ""
    · rw [if_pos hf] at hr
      injection hr with h1
      rw [← h1]
      exact setWrappers_specsDefinedB sc _
    · rw [if_neg hf] at hr
      exact Except.noConfusion hr
  · rw [if_neg hk] at hr
    injection hr with h1
    rw [← h1]
    exact setWrappers_specsDefinedB sc _

/-- C7: a handle copy `S2 = S` is the same heap index, so a write through
`S2`'s mutable `splits()` accessor is observed through `S`; `deep_copy`
returns a storage-disjoint record at a fresh index whose placement, splits,
dims, storage dims, bounds and flags are copied by value, and writing the
clone's splits leaves the source's splits unchanged. -/
theorem C7_alias_vs_deep_copy (h : Heap) (p : Nat) (sc : ScheduleContents)
    (sp2 : List Split) (cst : CloneState) (hp : h[p]? = some sc) :
    heapSplits (heapSetSplits h p sp2) p = some sp2 ∧
    (wfWrapB sc = true →
      ∃ h2 q st2, Schedule.deep_copyH h p cst = .ok (h2, q, st2) ∧
        q ≠ p ∧
        heapSplits h2 p = some sc.splits ∧
        (∃ c, h2[q]? = some c ∧ c.store_level = sc.store_level ∧
          c.compute_level = sc.compute_level ∧ c.splits = sc.splits ∧
          c.dims = sc.dims ∧ c.storage_dims = sc.storage_dims ∧
          c.bounds = sc.bounds ∧ c.memoized = sc.memoized ∧
          c.touched = sc.touched ∧
          c.allow_race_conditions = sc.allow_race_conditions) ∧
        heapSplits (heapSetSplits h2 q sp2) p = some sc.splits) := by
  have hlt : p < h.length := (List.getElem?_eq_some_iff.mp hp).1
  refine ⟨heapSplits_setSplits_self h p sc sp2 hp, fun hwf => ?_⟩
  obtain ⟨c, st2, hdc, _⟩ := deep_copy_defined_total sc cst hwf
  obtain ⟨f1, f2, f3, f4, f5, f6, _, f8, f9, f10, _⟩ := deep_copy_defined_fields hdc
  have hq : Schedule.deep_copyH h p cst = .ok (h ++ [c], h.length, st2) := by
    simp [Schedule.deep_copyH, hp, deep_copy_schedule_contents_helper, hdc]
  have hne : h.length ≠ p := Nat.ne_of_gt hlt
  have hgetp : (h ++ [c])[p]? = some sc := by
    rw [List.getElem?_append_left hlt]
    exact hp
  refine ⟨h ++ [c], h.length, st2, hq, hne, ?_,
    ⟨c, List.getElem?_concat_length h c, f1, f2, f3, f4, f5, f6, f8, f9, f10⟩, ?_⟩
  · simp [heapSplits, hgetp]
  · rw [heapSplits_setSplits_ne (h ++ [c]) p h.length sp2 hne]
    simp [heapSplits, hgetp]

/-- C7 witness: the theorem applied to the one-record heap `[sc0]`. -/
theorem C7_alias_vs_deep_copy_witness :
    ([sc0] : Heap)[0]? = some sc0 ∧ wfWrapB sc0 = true ∧
    heapSplits (heapSetSplits [sc0] 0 []) 0 = some [] ∧
    (∃ h2 q st2, Schedule.deep_copyH [sc0] 0 ⟨[], 0⟩ = .ok (h2, q, st2) ∧
      q ≠ 0 ∧
      heapSplits h2 0 = some sc0.splits ∧
      (∃ c, h2[q]? = some c ∧ c.store_level = sc0.store_level ∧
        c.compute_level = sc0.compute_level ∧ c.splits = sc0.splits ∧
        c.dims = sc0.dims ∧ c.storage_dims = sc0.storage_dims ∧
        c.bounds = sc0.bounds ∧ c.memoized = sc0.memoized ∧
        c.touched = sc0.touched ∧
        c.allow_race_conditions = sc0.allow_race_conditions) ∧
      heapSplits (heapSetSplits h2 q []) 0 = some sc0.splits) :=
  ⟨rfl, rfl, (C7_alias_vs_deep_copy [sc0] 0 sc0 [] ⟨[], 0⟩ rfl).1,
    (C7_alias_vs_deep_copy [sc0] 0 sc0 [] ⟨[], 0⟩ rfl).2 rfl⟩

/-- C8: every specialization reachable through the public operations has a
defined nested schedule: `add_specialization` attaches a freshly allocated
nested record and preserves the invariant, a successful `add_wrapper`
preserves it, the deep copy of a specialization list produces defined
nested clones, and under the invariant the internal assertion inside the
`mutate` traversal can never fail — `mutate` always returns a result, which
satisfies the invariant again. -/
theorem C8_nested_schedule_invariant {σ : Type} (sc : ScheduleContents)
    (cond : Option Expr) (m : Mutator σ) (st : σ) (cst : CloneState)
    (f : String) (w1 : Nat) :
    (Schedule.add_specialization sc cond).2.schedule.isSome = true ∧
    (specsDefinedB sc = true →
      specsDefinedB (Schedule.add_specialization sc cond).1 = true) ∧
    (specsDefinedB sc = true → ∀ r, Schedule.add_wrapper sc f w1 = .ok r →
      specsDefinedB r.1 = true) ∧
    (wfWrapB sc = true → specsDefinedB sc = true →
      ∃ c st2, deep_copy_schedule_contents_helper (some sc) cst = .ok (some c, st2) ∧
        specsDefinedB c = true) ∧
    (specsDefinedB sc = true →
      ∃ sc2 st2, ScheduleContents.mutate m sc st = .ok (sc2, st2) ∧
        specsDefinedB sc2 = true) := by
  refine ⟨?_, ?_, ?_, ?_, fun h => mutate_total m sc st h⟩
  · cases sc
    rfl
  · intro h
    cases sc with
    | mk sl cl sp d sd b specs w rd mz t ar =>
      have h2 : specsDefinedList specs = true := h
      show specsDefinedList (specs ++
        [(cond, some (ScheduleContents.mk sl cl sp d sd b [] [] rd mz t ar))]) = true
      simp [specsDefinedList_append, h2, specsDefinedList, specsDefinedB]
  · intro h r hr
    rw [add_wrapper_ok_specsDefined sc f w1 r hr]
    exact h
  · intro hwf hdef
    obtain ⟨c, st2, hdc, hpres⟩ := deep_copy_defined_total sc cst hwf
    exact ⟨c, st2, by simp [deep_copy_schedule_contents_helper, hdc], hpres hdef⟩

/-- C8 witness: the theorem applied to the concrete record `sc0`. -/
theorem C8_nested_schedule_invariant_witness :
    (Schedule.add_specialization sc0 (some (.var "q"))).2.schedule.isSome = true ∧
    specsDefinedB sc0 = true ∧
    specsDefinedB (Schedule.add_specialization sc0 (some (.var "q"))).1 = true ∧
    (∀ r, Schedule.add_wrapper sc0 "g" 3 = .ok r → specsDefinedB r.1 = true) ∧
    wfWrapB sc0 = true ∧
    (∃ c st2, deep_copy_schedule_contents_helper (some sc0) ⟨[], 0⟩ =
      .ok (some c, st2) ∧ specsDefinedB c = true) ∧
    (∃ sc2 st2, ScheduleContents.mutate idMutator sc0 (0 : Nat) = .ok (sc2, st2) ∧
      specsDefinedB sc2 = true) :=
  ⟨(C8_nested_schedule_invariant sc0 (some (.var "q")) idMutator (0 : Nat)
      ⟨[], 0⟩ "g" 3).1, rfl,
    (C8_nested_schedule_invariant sc0 (some (.var "q")) idMutator (0 : Nat)
      ⟨[], 0⟩ "g" 3).2.1 rfl,
    (C8_nested_schedule_invariant sc0 (some (.var "q")) idMutator (0 : Nat)
      ⟨[], 0⟩ "g" 3).2.2.1 rfl, rfl,
    (C8_nested_schedule_invariant sc0 (some (.var "q")) idMutator (0 : Nat)
      ⟨[], 0⟩ "g" 3).2.2.2.1 rfl rfl,
    (C8_nested_schedule_invariant sc0 (some (.var "q")) idMutator (0 : Nat)
      ⟨[], 0⟩ "g" 3).2.2.2.2 rfl⟩

/-- C9 counterexample: `deep_copy` returns the deep clone of its source, so
deep-copying the record `nested0` (which holds one split) yields a defined
result whose record is NOT empty — refuting "deep_copy returns contents
with an empty record". -/
theorem C9_counterexample :
    Schedule.deep_copy (some nested0) ⟨[], 0⟩ = .ok (some nested0, ⟨[], 0⟩) ∧
    nested0.splits ≠ [] :=
  ⟨rfl, by decide⟩

/-- C9 (amended): a default-constructed `Schedule` has defined contents
holding the empty record (all sequences empty, undefined reduction domain,
all three flags false); `deep_copy` of defined contents returns defined
contents (the deep clone of the source, not in general an empty record);
and `deep_copy` never raises the fatal "Cannot deep-copy undefined
Schedule" diagnostic on defined contents, so that branch is unreachable for
schedules built through the public interface. -/
theorem C9_public_definedness (sc : ScheduleContents) (cst : CloneState) :
    Schedule.new = some emptyScheduleContents ∧
    emptyScheduleContents.splits = [] ∧ emptyScheduleContents.dims = [] ∧
    emptyScheduleContents.storage_dims = [] ∧ emptyScheduleContents.bounds = [] ∧
    emptyScheduleContents.specializations = [] ∧
    emptyScheduleContents.wrappers = [] ∧
    emptyScheduleContents.reduction_domain = none ∧
    emptyScheduleContents.memoized = false ∧
    emptyScheduleContents.touched = false ∧
    emptyScheduleContents.allow_race_conditions = false ∧
    (wfWrapB sc = true →
      ∃ c st2, Schedule.deep_copy (some sc) cst = .ok (some c, st2)) ∧
    Schedule.deep_copy (some sc) cst ≠
      .error "Cannot deep-copy undefined Schedule" := by
  refine ⟨rfl, rfl, rfl, rfl, rfl, rfl, rfl, rfl, rfl, rfl, rfl,
    fun h => ?_, fun hcon => ?_⟩
  · obtain ⟨c, st2, hdc, _⟩ := deep_copy_defined_total sc cst h
    exact ⟨c, st2, by simp [Schedule.deep_copy, deep_copy_schedule_contents_helper, hdc]⟩
  · simp only [Schedule.deep_copy, deep_copy_schedule_contents_helper] at hcon
    cases hdc : deep_copy_defined sc cst with
    | error e2 =>
      rw [hdc] at hcon
      injection hcon with h1
      have hmsg := deep_copy_defined_err sc cst e2 hdc
      rw [hmsg] at h1
      exact absurd h1 (by decide)
    | ok p =>
      obtain ⟨c, st2⟩ := p
      rw [hdc] at hcon
      exact Except.noConfusion hcon

/-- C9 witness: the amended theorem applied to the concrete record
`sc0`. -/
theorem C9_public_definedness_witness :
    wfWrapB sc0 = true ∧
    (∃ c st2, Schedule.deep_copy (some sc0) ⟨[], 0⟩ = .ok (some c, st2)) ∧
    Schedule.deep_copy (some sc0) ⟨[], 0⟩ ≠
      .error "Cannot deep-copy undefined Schedule" := by
  have h := C9_public_definedness sc0 ⟨[], 0⟩
  exact ⟨rfl, h.2.2.2.2.2.2.2.2.2.2.2.1 rfl, h.2.2.2.2.2.2.2.2.2.2.2.2⟩

end Halide
